import Mathlib

/-!
Verification of the format-preserving TOML patch engine of `web-cfg`
(`src/web-cfg/main.ts`, duplicated in `src/web-cfg/toml_file_manipulator.ts`).

Strings are modelled as `List Char` (`Str`).  The JavaScript string
operations used by the source (split on the regular expression form
CR-optional-LF, join, trim, global replace) and the three regular
expressions of the engine (section header, key assignment, relaxed
assignment) are embedded as executable functions on `Str`, following the
deterministic matching behaviour of the JavaScript regex engine on these
patterns (greedy and lazy quantifier semantics are resolved below; each
resolution is noted where it occurs).

External collaborators (the TOML parser `toml.parse` and the full
stringifier `toToml`) are not re-implemented: parsed trees are inputs,
and the fallback stringifier is a function parameter.
-/

namespace WebCfg

abbrev Str := List Char

/-- The double-quote character. -/
def dquote : Char := Char.ofNat 34

/-- The single-quote character. -/
def squote : Char := Char.ofNat 39

/-- The backslash character. -/
def bslash : Char := Char.ofNat 92

/-- JavaScript whitespace (the regex class backslash-s) restricted to the
characters that can actually occur here: ASCII whitespace and NBSP.  The
exotic Unicode space characters of the full JavaScript class are omitted;
no claim depends on them. -/
def isWs (c : Char) : Bool :=
  c = ' ' || c = '\t' || c = '\r' || c = '\n' || c = Char.ofNat 11 ||
    c = Char.ofNat 12 || c = Char.ofNat 160

/-- Prepend a character to the first line of a line list (the
accumulating step of `splitLines`). -/
def consHead (c : Char) : List Str → List Str
  | [] => [[c]]
  | l :: ls => (c :: l) :: ls

/-- Embedding of `text.split(/\r?\n/)` (see `splitLines` next): a CRLF
pair or a lone LF ends a line; a CR not followed by LF stays in its
line. -/
def splitLines : Str → List Str
  | [] => [[]]
  | c :: rest =>
    if c = '\n' then [] :: splitLines rest
    else if c = '\r' then
      match rest with
      | c2 :: rest2 =>
        if c2 = '\n' then [] :: splitLines rest2
        else consHead c (splitLines (c2 :: rest2))
      | [] => consHead c (splitLines [])
    else consHead c (splitLines rest)

/-- Embedding of `lines.join("\n")`. -/
def joinNL : List Str → Str
  | [] => []
  | [l] => l
  | l :: ls => l ++ '\n' :: joinNL ls

/-- Embedding of `sectionPath.join(".")`. -/
def joinDot : List Str → Str
  | [] => []
  | [s] => s
  | s :: ss => s ++ '.' :: joinDot ss

/-- Trailing-whitespace strip, used to build `trimWs`. -/
def dropTrailWs (l : Str) : Str := (l.reverse.dropWhile isWs).reverse

/-- The trailing whitespace itself (the part removed by `dropTrailWs`). -/
def takeTrailWs (l : Str) : Str := (l.reverse.takeWhile isWs).reverse

/-- Embedding of JavaScript `String.prototype.trim`. -/
def trimWs (l : Str) : Str := dropTrailWs (l.dropWhile isWs)

/-- Embedding of `s.replace(/c/g, repl)` for a single target character:
every occurrence of `target` is replaced by `repl`. -/
def replaceChar (target : Char) (repl : Str) : Str → Str
  | [] => []
  | c :: r =>
    if c = target then repl ++ replaceChar target repl r
    else c :: replaceChar target repl r

/-- Embedding of `quoteTomlString` (main.ts line 671): wrap in double
quotes after doubling backslashes and then escaping double quotes, the
two sequential global replaces of the source. -/
def quoteTomlString (s : Str) : Str :=
  dquote :: replaceChar dquote [bslash, dquote] (replaceChar bslash [bslash, bslash] s) ++ [dquote]

/-- A JavaScript number as far as this program observes one: an
integer-valued finite number carrying its exact value, or one of the
non-finite values.  Non-integer finite doubles do not occur in any claim;
`String(n)` on an integer-valued number in the safe range is its decimal
text, which is how `numRepr` renders it. -/
inductive JsNumber
  | int : Int → JsNumber
  | nan : JsNumber
  | posInf : JsNumber
  | negInf : JsNumber
deriving DecidableEq

/-- Embedding of `Number.isFinite`. -/
def JsNumber.isFinite : JsNumber → Bool
  | .int _ => true
  | _ => false

/-- Embedding of `String(v)` for a `JsNumber` (default decimal formatting;
the non-finite spellings are never used by the serializer, which coerces
non-finite numbers to "0" first). -/
def JsNumber.numRepr : JsNumber → Str
  | .int n => (toString n).toList
  | .nan => ("NaN").toList
  | .posInf => ("Infinity").toList
  | .negInf => ("-Infinity").toList

/-- The value tree produced by the external TOML parser, mirroring the
source type `Json = null | boolean | number | string | Json[] |
Map of string to Json`.  A table is an association list in insertion
order with unique keys (as a JavaScript object). -/
inductive Json
  | null : Json
  | bool : Bool → Json
  | num : JsNumber → Json
  | str : Str → Json
  | arr : List Json → Json
  | table : List (Str × Json) → Json

instance : Inhabited Json := ⟨Json.null⟩

/-- Embedding of `valueToTomlScalar` (main.ts line 676): the scalar
literal of a leaf, or `none` for a composite (the "not patchable"
signal). -/
def valueToTomlScalar : Json → Option Str
  | .null => some (("null").toList)
  | .bool b => some (if b then ("true").toList else ("false").toList)
  | .num n => some (if n.isFinite then n.numRepr else ("0").toList)
  | .str s => some (quoteTomlString s)
  | .arr _ => none
  | .table _ => none

/-- Is the value a composite (array or table)? -/
def Json.isComposite : Json → Bool
  | .arr _ => true
  | .table _ => true
  | _ => false

/-- The negated single-character test used by the scanning regexes (the
classes excluding one character). -/
def notEqChar (t : Char) (c : Char) : Bool := c ≠ t

/-- Embedding of the section-header regex of `patchScalarInSection`
(main.ts line 693), anchored whitespace, open bracket, one or more
non-bracket characters captured, close bracket, whitespace: returns the
captured group.  The one-or-more class cannot cross a close bracket, so
the captured text runs to the first close bracket, after which only
whitespace may follow. -/
def headerMatch (line : Str) : Option Str :=
  match line.dropWhile isWs with
  | [] => none
  | c :: r =>
    if c = '[' then
      let inside := r.takeWhile (notEqChar ']')
      match r.dropWhile (notEqChar ']') with
      | [] => none
      | _ :: after =>
        if inside ≠ [] ∧ after.all isWs then some inside else none
    else none

/-- Embedding of the key-assignment regex of `patchScalarInSection`
(main.ts line 707): leading whitespace (captured as indent), the
regex-escaped key literally, whitespace, an equals sign, then a greedy
non-hash value group followed by the tail group.  Because the value group
is greedy, the tail group starts exactly at the first hash character (or
is empty): the whitespace before an inline comment belongs to the value
group, not to the captured tail.  Returns the indent and the tail. -/
def keyMatch (key line : Str) : Option (Str × Str) :=
  let indent := line.takeWhile isWs
  let rest := line.dropWhile isWs
  if rest.take key.length = key then
    match (rest.drop key.length).dropWhile isWs with
    | [] => none
    | c :: after =>
      if c = '=' then some (indent, after.dropWhile (notEqChar '#')) else none
  else none

/-- Characters that are syntax characters of an ECMAScript pattern: a key
containing none of them stands for its own text literally when spliced
into the constructed key regex of `patchScalarInSection`. -/
def regexMetaChar (c : Char) : Bool :=
  c = '^' || c = '$' || c = bslash || c = '.' || c = '*' || c = '+' ||
    c = '?' || c = '(' || c = ')' || c = '[' || c = ']' ||
    c = Char.ofNat 123 || c = Char.ofNat 125 || c = '|'

/-- The character class actually denoted by the escape pattern of
`patchScalarInSection` (main.ts line 709).  The class written in the
source is closed by its first unescaped right bracket, so it holds
exactly dot, star, plus, question mark, caret, dollar, the two braces,
the two parentheses, the bar, the left bracket and the backslash — and
the remainder of the pattern after the class is the literal text of two
backslashes and a right bracket. -/
def escClassChar (c : Char) : Bool :=
  c = '.' || c = '*' || c = '+' || c = '?' || c = '^' || c = '$' ||
    c = Char.ofNat 123 || c = Char.ofNat 125 || c = '(' || c = ')' ||
    c = '|' || c = '[' || c = bslash

/-- Embedding of the key escape in `patchScalarInSection` (main.ts line
709).  Because the character class of the escape pattern is closed early
(see `escClassChar`), the global replace rewrites an occurrence of one
class character followed by two backslashes and a right bracket into a
backslash followed by that occurrence, and rewrites nothing else.  On
every ordinary key — in particular on every key free of regex syntax
characters — it is therefore the identity (`escapeRegExpKey_id` below):
the escape fails to protect metacharacters, and a key holding a regex
syntax character reaches the RegExp constructor unescaped, where it acts
as a pattern operator or raises a syntax error.  `keyMatch` above models
the constructed regex for keys built of non-syntax characters only, where
the key fragment of the pattern denotes the literal key text; the
theorems about the patcher that quantify over keys carry that restriction
as a hypothesis on the key. -/
def escapeRegExpKey : Str → Str
  | [] => []
  | c :: b1 :: b2 :: r :: rest2 =>
    if escClassChar c && (b1 = bslash && b2 = bslash && r = ']') then
      bslash :: c :: bslash :: bslash :: ']' :: escapeRegExpKey rest2
    else c :: escapeRegExpKey (b1 :: b2 :: r :: rest2)
  | c :: rest => c :: escapeRegExpKey rest

/-- The replacement line built by `patchScalarInSection` on a match
(main.ts line 716). -/
def rewriteLine (indent key lit tail : Str) : Str :=
  indent ++ key ++ (" = ").toList ++ lit ++ tail

/-- The line scan of `patchScalarInSection` (main.ts lines 697 to 722).
A header line updates the in-section flag and is kept.  A non-header line
inside the target section is tested against the key pattern; on the first
match the line is rewritten and the scan stops (the source breaks out of
the loop).  The source then re-tests the header pattern and breaks; that
re-test is unreachable (header lines were consumed by the first test) but
is kept for fidelity. -/
def patchLoop (target key lit : Str) : Bool → List Str → List Str × Bool
  | _, [] => ([], false)
  | inSection, l :: ls =>
    match headerMatch l with
    | some inside =>
      let r := patchLoop target key lit (trimWs inside = target) ls
      (l :: r.1, r.2)
    | none =>
      if inSection then
        match keyMatch key l with
        | some (indent, tail) => (rewriteLine indent key lit tail :: ls, true)
        | none =>
          match headerMatch l with
          | some _ => (l :: ls, false)
          | none =>
            let r := patchLoop target key lit inSection ls
            (l :: r.1, r.2)
      else
        let r := patchLoop target key lit inSection ls
        (l :: r.1, r.2)

/-- Embedding of `patchScalarInSection` (main.ts lines 684 to 725). -/
def patchScalarInSection (text : Str) (sectionPath : List Str) (key newValToml : Str) :
    Str × Bool :=
  let lines := splitLines text
  let r := patchLoop (joinDot sectionPath) key newValToml (sectionPath = []) lines
  (joinNL r.1, r.2)

/-- Property lookup on a table object: `obj[k]`, `none` for a missing key
(JavaScript `undefined`). -/
def jsLookup : List (Str × Json) → Str → Option Json
  | [], _ => none
  | (k1, v) :: rest, k => if k1 = k then some v else jsLookup rest k

/-- Embedding of `Object.keys`. -/
def keysOf (kvs : List (Str × Json)) : List Str := kvs.map Prod.fst

/-- Worker for `dedupKeys`, carrying the set of keys already produced. -/
def dedupGo : List Str → List Str → List Str
  | [], _ => []
  | k :: ks, seen =>
    if k ∈ seen then dedupGo ks seen else k :: dedupGo ks (k :: seen)

/-- Embedding of iterating `new Set(list)`: first occurrences, in
insertion order. -/
def dedupKeys (l : List Str) : List Str := dedupGo l []

/-- `valueToTomlScalar` applied through a possibly missing property:
`undefined` is not null, boolean, number or string, so it falls through
to the composite result `null`. -/
def scalarOfOpt : Option Json → Option Str
  | none => none
  | some v => valueToTomlScalar v

/-- Embedding of the descend guard of `walkPatch` (main.ts lines 756 to
759): the value is truthy, of object type and not an array, which for a
parsed tree holds exactly for a table (null is falsy, arrays are
excluded, scalars are not of object type). -/
def asTable : Option Json → Option (List (Str × Json))
  | some (Json.table kvs) => some kvs
  | some Json.null => none
  | some (Json.bool _) => none
  | some (Json.num _) => none
  | some (Json.str _) => none
  | some (Json.arr _) => none
  | none => none

/-- Worker for `walkPatch` (main.ts lines 727 to 770): iterate the
deduplicated union of the key sets; a key whose value serializes to a
scalar literal in both trees is patched in place unconditionally (the
source compares the two literals against null only, never against each
other); a key that is a table in both trees is descended into with the
key appended to the section path; every other combination is skipped.
The text accumulates left to right and the patched flags are or-ed. -/
def walkPatchGo : List (Str × Json) → List (Str × Json) → List Str → List Str → Str →
    Str × Bool
  | _, _, _, [], text => (text, false)
  | old, new, path, k :: ks, text =>
    let step : Str × Bool :=
      match scalarOfOpt (jsLookup new k), scalarOfOpt (jsLookup old k) with
      | some ns, some _ => patchScalarInSection text path k ns
      | _, _ =>
        match hN : asTable (jsLookup new k), asTable (jsLookup old k) with
        | some nk, some ok =>
          walkPatchGo ok nk (path ++ [k]) (dedupKeys (keysOf ok ++ keysOf nk)) text
        | _, _ => (text, false)
    let rest := walkPatchGo old new path ks step.1
    (rest.1, step.2 || rest.2)
termination_by old new path ks text => (sizeOf new, ks.length)
decreasing_by
  · have hsz : ∀ (kvs : List (Str × Json)) (q : Str) (v : Json),
        jsLookup kvs q = some v → sizeOf v < sizeOf kvs := by
      intro kvs
      induction kvs with
      | nil => intro q v h; simp [jsLookup] at h
      | cons p rest ih =>
        intro q v h
        obtain ⟨k1, w⟩ := p
        by_cases hk : k1 = q
        · simp only [jsLookup, if_pos hk, Option.some.injEq] at h
          subst h
          simp only [List.cons.sizeOf_spec, Prod.mk.sizeOf_spec]
          omega
        · simp only [jsLookup, if_neg hk] at h
          have := ih q v h
          simp only [List.cons.sizeOf_spec, Prod.mk.sizeOf_spec]
          omega
    have hv : jsLookup new k = some (Json.table nk) := by
      cases ho : jsLookup new k with
      | none => rw [ho] at hN; simp [asTable] at hN
      | some v =>
        rw [ho] at hN
        cases v with
        | table kvs => simp only [asTable, Option.some.injEq] at hN; rw [hN]
        | null => simp [asTable] at hN
        | bool b => simp [asTable] at hN
        | num n => simp [asTable] at hN
        | str s => simp [asTable] at hN
        | arr a => simp [asTable] at hN
    have h1 := hsz new k _ hv
    have h2 : sizeOf nk < sizeOf (Json.table nk) := by
      simp only [Json.table.sizeOf_spec]
      omega
    exact Prod.Lex.left _ _ (by omega)
  · exact Prod.Lex.right _ (by simp)

/-- Embedding of `walkPatch` (main.ts lines 727 to 770), argument order
as in the source. -/
def walkPatch (text : Str) (old new : List (Str × Json)) (pathAcc : List Str) :
    Str × Bool :=
  walkPatchGo old new pathAcc (dedupKeys (keysOf old ++ keysOf new)) text

/-- The effect of one key of the `walkPatch` loop, as a standalone
function (used to state per-key lemmas about `walkPatchGo`). -/
def walkStep (old new : List (Str × Json)) (path : List Str) (k : Str) (text : Str) :
    Str × Bool :=
  match scalarOfOpt (jsLookup new k), scalarOfOpt (jsLookup old k) with
  | some ns, some _ => patchScalarInSection text path k ns
  | _, _ =>
    match asTable (jsLookup new k), asTable (jsLookup old k) with
    | some nk, some ok => walkPatch text ok nk (path ++ [k])
    | _, _ => (text, false)

/-- Stand-in for the external fallback stringifier `toToml`; its output
never matters in the statements below (it is either universally
quantified or shown not to be reached). -/
def fallbackStub : List (Str × Json) → Str := fun _ => []

/-- Embedding of the preserve branch of `handleSave` (main.ts lines 904
to 920): run `walkPatch` of the new tree against the original text; if
at least one instruction was applied, keep the patched text with
`preserved = true`; otherwise stringify the new tree with the external
fallback serializer and report `preserved = false`.  The external
`toml.parse(originalText)` is the `oldObj` argument (the claims concern
the path where the original text parses). -/
def handleSavePreserve (fallback : List (Str × Json) → Str) (originalText : Str)
    (oldObj data : List (Str × Json)) : Str × Bool :=
  let result := walkPatch originalText oldObj data []
  if result.2 then (result.1, true) else (fallback data, false)

/-- A patch instruction: section path, key, new literal. -/
abbrev Instr := List Str × Str × Str

/-- The sequence of line-patcher calls that `walkPatchGo` performs, as
data: same recursion, same guards, recording `(path, key, literal)`
instead of patching.  Proved below to determine `walkPatchGo` exactly. -/
def emitGo : List (Str × Json) → List (Str × Json) → List Str → List Str → List Instr
  | _, _, _, [] => []
  | old, new, path, k :: ks =>
    let step : List Instr :=
      match scalarOfOpt (jsLookup new k), scalarOfOpt (jsLookup old k) with
      | some ns, some _ => [(path, k, ns)]
      | _, _ =>
        match hN : asTable (jsLookup new k), asTable (jsLookup old k) with
        | some nk, some ok =>
          emitGo ok nk (path ++ [k]) (dedupKeys (keysOf ok ++ keysOf nk))
        | _, _ => []
    step ++ emitGo old new path ks
termination_by old new path ks => (sizeOf new, ks.length)
decreasing_by
  · have hsz : ∀ (kvs : List (Str × Json)) (q : Str) (v : Json),
        jsLookup kvs q = some v → sizeOf v < sizeOf kvs := by
      intro kvs
      induction kvs with
      | nil => intro q v h; simp [jsLookup] at h
      | cons p rest ih =>
        intro q v h
        obtain ⟨k1, w⟩ := p
        by_cases hk : k1 = q
        · simp only [jsLookup, if_pos hk, Option.some.injEq] at h
          subst h
          simp only [List.cons.sizeOf_spec, Prod.mk.sizeOf_spec]
          omega
        · simp only [jsLookup, if_neg hk] at h
          have := ih q v h
          simp only [List.cons.sizeOf_spec, Prod.mk.sizeOf_spec]
          omega
    have hv : jsLookup new k = some (Json.table nk) := by
      cases ho : jsLookup new k with
      | none => rw [ho] at hN; simp [asTable] at hN
      | some v =>
        rw [ho] at hN
        cases v with
        | table kvs => simp only [asTable, Option.some.injEq] at hN; rw [hN]
        | null => simp [asTable] at hN
        | bool b => simp [asTable] at hN
        | num n => simp [asTable] at hN
        | str s => simp [asTable] at hN
        | arr a => simp [asTable] at hN
    have h1 := hsz new k _ hv
    have h2 : sizeOf nk < sizeOf (Json.table nk) := by
      simp only [Json.table.sizeOf_spec]
      omega
    exact Prod.Lex.left _ _ (by omega)
  · exact Prod.Lex.right _ (by simp)

/-- The instruction trace of a whole `walkPatch` call. -/
def emittedInstrs (old new : List (Str × Json)) (pathAcc : List Str) : List Instr :=
  emitGo old new pathAcc (dedupKeys (keysOf old ++ keysOf new))

/-- The instructions of one key of the loop (mirrors `walkStep`). -/
def emitStep (old new : List (Str × Json)) (path : List Str) (k : Str) : List Instr :=
  match scalarOfOpt (jsLookup new k), scalarOfOpt (jsLookup old k) with
  | some ns, some _ => [(path, k, ns)]
  | _, _ =>
    match asTable (jsLookup new k), asTable (jsLookup old k) with
    | some nk, some ok => emittedInstrs ok nk (path ++ [k])
    | _, _ => []

/-- Apply a list of instructions in order through the line patcher,
or-ing the per-instruction success flags. -/
def applyInstrs : Str → List Instr → Str × Bool
  | text, [] => (text, false)
  | text, i :: is =>
    let r := patchScalarInSection text i.1 i.2.1 i.2.2
    let rest := applyInstrs r.1 is
    (rest.1, r.2 || rest.2)

/-- Descend both trees along a path, one key at a time, exactly when the
walk would descend (both values are tables). -/
def descendBoth : List (Str × Json) → List (Str × Json) → List Str →
    Option (List (Str × Json) × List (Str × Json))
  | old, new, [] => some (old, new)
  | old, new, k :: p =>
    match asTable (jsLookup new k), asTable (jsLookup old k) with
    | some nk, some ok => descendBoth ok nk p
    | _, _ => none

/-- ASCII digit test (the regex class backslash-d). -/
def isDigit (c : Char) : Bool := '0' ≤ c && c ≤ '9'

/-- Digit or underscore (the regex class of digit and underscore). -/
def isDigitU (c : Char) : Bool := isDigit c || c = '_'

/-- The optional exponent part of the number literal grammar, anchored at
the end: empty, or an e marker, an optional sign and one or more digits
reaching the end of the text. -/
def numExpEnd : Str → Bool
  | [] => true
  | e :: rest =>
    (e = 'e' || e = 'E') &&
      (let rest2 := match rest with
        | c :: r4 => if c = '+' || c = '-' then r4 else c :: r4
        | [] => []
       match rest2 with
       | [] => false
       | d3 :: r5 => isDigit d3 && (r5.dropWhile isDigit).isEmpty)

/-- Embedding of the number-literal regex of `looksLikeBareString`
(main.ts line 140): optional sign, a digit, digits or underscores, an
optional fraction (dot, digit, digits or underscores), an optional
exponent, anchored on both sides.  The character classes at each
boundary are disjoint, so greedy matching is deterministic. -/
def numLit (l : Str) : Bool :=
  let l1 := match l with
    | c :: r => if c = '+' || c = '-' then r else c :: r
    | [] => []
  match l1 with
  | [] => false
  | d :: r =>
    isDigit d &&
      (let r2 := r.dropWhile isDigitU
       match r2 with
       | '.' :: rest =>
         (match rest with
          | d2 :: rest2 => isDigit d2 && numExpEnd (rest2.dropWhile isDigitU)
          | [] => false)
       | _ => numExpEnd r2)

/-- Consume exactly `n` digits. -/
def digitsN : Nat → Str → Option Str
  | 0, l => some l
  | _ + 1, [] => none
  | n + 1, c :: r => if isDigit c then digitsN n r else none

/-- Consume one expected character. -/
def expectChar (x : Char) : Str → Option Str
  | [] => none
  | c :: r => if c = x then some r else none

/-- Consume a date, four digits, dash, two digits, dash, two digits. -/
def dateYmd (l : Str) : Option Str :=
  ((((digitsN 4 l).bind (expectChar '-')).bind (digitsN 2)).bind (expectChar '-')).bind
    (digitsN 2)

/-- Consume hours, colon, minutes. -/
def timeHm (l : Str) : Option Str :=
  ((digitsN 2 l).bind (expectChar ':')).bind (digitsN 2)

/-- The optional seconds group of the date-time regex: a colon commits to
two digits and an optional fraction of one to six digits (a run of seven
or more digits fails the group and, by the anchors, the whole match, in
the regex as here). -/
def secFrac : Str → Option Str
  | ':' :: r =>
    (match digitsN 2 r with
     | none => none
     | some r2 =>
       match r2 with
       | '.' :: r3 =>
         let ds := r3.takeWhile isDigit
         if 1 ≤ ds.length && ds.length ≤ 6 then some (r3.drop ds.length) else none
       | _ => some r2)
  | l => some l

/-- The optional zone suffix, anchored at the end: empty, Z at the end,
or a sign, two digits, colon, two digits at the end. -/
def tzEnd : Str → Bool
  | [] => true
  | 'Z' :: r => r.isEmpty
  | c :: r =>
    (c = '+' || c = '-') &&
      ((((digitsN 2 r).bind (expectChar ':')).bind (digitsN 2)) = some ([] : Str))

/-- Embedding of the date-time regex of `looksLikeBareString` (main.ts
line 146): a date, optionally followed by a space or t marker, time,
optional seconds with fraction, and an optional zone, anchored on both
sides. -/
def dateLit (l : Str) : Bool :=
  match dateYmd l with
  | none => false
  | some [] => true
  | some (c :: r1) =>
    (c = ' ' || c = 't' || c = 'T') &&
      (match timeHm r1 with
       | none => false
       | some r3 =>
         match secFrac r3 with
         | none => false
         | some r7 => tzEnd r7)

/-- Embedding of the case-insensitive boolean regex of
`looksLikeBareString` (main.ts line 137). -/
def boolLit (t : Str) : Bool :=
  t.map Char.toLower = ("true").toList || t.map Char.toLower = ("false").toList

/-- Embedding of `looksLikeBareString` (main.ts lines 127 to 158): the
trimmed candidate is not a bare string when it starts with a quote,
bracket or brace, is a boolean, number or date-time literal, or is
empty; otherwise it is bare.  The source tests emptiness last, after the
start-character and literal tests, which all reject the empty string, so
testing it first is equivalent. -/
def looksLikeBareString (v : Str) : Bool :=
  let t := trimWs v
  match t with
  | [] => false
  | c :: _ =>
    if c = dquote || c = squote then false
    else if c = '[' || c = Char.ofNat 123 then false
    else if boolLit t then false
    else if numLit t then false
    else if dateLit t then false
    else true

/-- The lazy value group and the tail group of the relaxed assignment
regex, given the value region (first character already admitted): the
lazy non-hash quantifier takes the shortest extension after which only
whitespace runs to the first hash (or to the end), so the value is the
first character plus the non-hash part stripped of trailing whitespace,
and the tail group is that trailing whitespace followed by everything
from the first hash on. -/
def valueTailSplit : Str → Str × Str
  | [] => ([], [])
  | v0 :: vr =>
    (v0 :: dropTrailWs (vr.takeWhile (notEqChar '#')),
      takeTrailWs (vr.takeWhile (notEqChar '#')) ++ vr.dropWhile (notEqChar '#'))

/-- The value-side of the relaxed assignment regex, given the groups to
the left of (and including) the equals sign (see `assignMatch` below for
the regex as a whole). -/
def assignValuePart (ws0 : Str) (c0 : Char) (beforeEq : Str) (e : Char)
    (afterEq : Str) : Option (Str × Str × Str) :=
  match afterEq.dropWhile isWs with
  | r0 :: _ =>
    if r0 = '#' ∨ r0 = dquote ∨ r0 = squote ∨ r0 = '[' ∨ r0 = Char.ofNat 123 then
      match (afterEq.takeWhile isWs).reverse with
      | [] => none
      | wLast :: wsInitRev =>
        some (ws0 ++ c0 :: beforeEq ++ e :: wsInitRev.reverse,
          (valueTailSplit (wLast :: afterEq.dropWhile isWs)).1,
          (valueTailSplit (wLast :: afterEq.dropWhile isWs)).2)
    else
      some (ws0 ++ c0 :: beforeEq ++ e :: afterEq.takeWhile isWs,
        (valueTailSplit (afterEq.dropWhile isWs)).1,
        (valueTailSplit (afterEq.dropWhile isWs)).2)
  | [] =>
    match (afterEq.takeWhile isWs).reverse with
    | [] => none
    | wLast :: wsInitRev =>
      some (ws0 ++ c0 :: beforeEq ++ e :: wsInitRev.reverse,
        (valueTailSplit [wLast]).1, (valueTailSplit [wLast]).2)

/-- Embedding of the relaxed assignment regex `assignRe` of
`readTomlFile` (main.ts lines 123 to 124), resolved to its deterministic
matching behaviour.  The left-hand side is anchored whitespace, one
character that is neither hash nor whitespace, a lazy non-equals run, one
character that is neither equals nor whitespace, whitespace, the first
equals sign of the line; so the key needs at least two characters, the
last one being the last non-whitespace character before the first equals
sign.  The part after the equals sign is handled by `assignValuePart`
above: the greedy whitespace is taken first, then the value group must
start with a character that is not hash, quote, bracket or brace; if the
character there is excluded, the regex backtracks one whitespace
character (always admitted by the class), and with no whitespace to give
back the line does not match.  Returns left-hand side, raw value and
tail groups; their concatenation is the line. -/
def assignMatch (line : Str) : Option (Str × Str × Str) :=
  match line.dropWhile isWs with
  | [] => none
  | c0 :: r1 =>
    if c0 = '#' then none
    else
      match r1.dropWhile (notEqChar '=') with
      | [] => none
      | e :: afterEq =>
        if (r1.takeWhile (notEqChar '=')).all isWs then none
        else assignValuePart (line.takeWhile isWs) c0 (r1.takeWhile (notEqChar '='))
          e afterEq

/-- Embedding of the per-line normalization of `readTomlFile` (main.ts
lines 160 to 177): a section header passes through; a non-matching line
passes through; a matching assignment whose raw value is a bare string
has the value replaced by the quoted escaped trimmed value (the source
inlines the same two replaces as `quoteTomlString`); any other matching
assignment passes through. -/
def relaxLine (line : Str) : Str :=
  if (headerMatch line).isSome then line
  else
    match assignMatch line with
    | none => line
    | some (lhs, v, tail) =>
      if looksLikeBareString v then lhs ++ quoteTomlString (trimWs v) ++ tail
      else line

/-- Embedding of the `relaxed` text built by `readTomlFile` (main.ts
lines 120 to 179): split, normalize each line, join with LF. -/
def relaxTomlText (text : Str) : Str := joinNL ((splitLines text).map relaxLine)

/-- Spec-side escaping, following the words of the spec (sections 4.4 and
6): backslash and double-quote characters are backslash-escaped, in one
pass over the string. -/
def specEscapeChar (c : Char) : Str :=
  if c = bslash || c = dquote then [bslash, c] else [c]

/-- Spec-side escaping of a whole string. -/
def specEscape : Str → Str
  | [] => []
  | c :: r => specEscapeChar c ++ specEscape r

/-- Spec-side scalar serializer, following the words of the spec (section
4.4): lower-case booleans, default decimal text for finite numbers and
"0" for non-finite ones, strings double-quoted with backslash and quote
escaped, the literal text null for the null value, and no literal for a
composite.  Stated for comparison with `valueToTomlScalar`. -/
def specScalarLiteral : Json → Option Str
  | .null => some (("null").toList)
  | .bool b => some (if b then ("true").toList else ("false").toList)
  | .num n => some (if n.isFinite then n.numRepr else ("0").toList)
  | .str s => some (dquote :: specEscape s ++ [dquote])
  | .arr _ => none
  | .table _ => none

/-! ### Scanning lemmas -/

theorem takeWhile_all_prefix {p : Char → Bool} (a : Str) (c : Char) (b : Str)
    (ha : ∀ x ∈ a, p x = true) (hc : p c = false) :
    (a ++ c :: b).takeWhile p = a := by
  induction a with
  | nil => simp [List.takeWhile_cons, hc]
  | cons y ys ih =>
    have hy : p y = true := ha y (by simp)
    simp only [List.cons_append, List.takeWhile_cons, hy, if_true]
    rw [ih (fun x hx => ha x (by simp [hx]))]

theorem dropWhile_all_prefix {p : Char → Bool} (a : Str) (c : Char) (b : Str)
    (ha : ∀ x ∈ a, p x = true) (hc : p c = false) :
    (a ++ c :: b).dropWhile p = c :: b := by
  induction a with
  | nil => simp [List.dropWhile_cons, hc]
  | cons y ys ih =>
    have hy : p y = true := ha y (by simp)
    simp only [List.cons_append, List.dropWhile_cons, hy, if_true]
    exact ih (fun x hx => ha x (by simp [hx]))

theorem dropWhile_all_nil {p : Char → Bool} (a : Str) (ha : ∀ x ∈ a, p x = true) :
    a.dropWhile p = [] :=
  List.dropWhile_eq_nil_iff.mpr ha

theorem takeWhile_all_self {p : Char → Bool} (a : Str) (ha : ∀ x ∈ a, p x = true) :
    a.takeWhile p = a := by
  have h := List.takeWhile_append_dropWhile p a
  rw [dropWhile_all_nil a ha, List.append_nil] at h
  exact h

theorem dropWhile_append_all {p : Char → Bool} (a b : Str) (ha : ∀ x ∈ a, p x = true) :
    (a ++ b).dropWhile p = b.dropWhile p := by
  induction a with
  | nil => simp
  | cons y ys ih =>
    have hy : p y = true := ha y (by simp)
    simp only [List.cons_append, List.dropWhile_cons, hy, if_true]
    exact ih (fun x hx => ha x (by simp [hx]))

theorem consHead_ne_nil (c : Char) (ls : List Str) : consHead c ls ≠ [] := by
  cases ls <;> simp [consHead]

theorem splitLines_ne_nil (l : Str) : splitLines l ≠ [] := by
  induction l with
  | nil => simp [splitLines]
  | cons c rest ih =>
    rw [splitLines.eq_def]
    by_cases h1 : c = '\n'
    · simp [h1]
    · by_cases h2 : c = '\r'
      · cases rest with
        | nil => simp [h1, h2, consHead_ne_nil]
        | cons c2 rest2 =>
          by_cases h3 : c2 = '\n'
          · simp [h1, h2, h3]
          · simp [h1, h2, h3, consHead_ne_nil]
      · simp [h1, h2, consHead_ne_nil]

theorem splitLines_single (l : Str) (h : ∀ c ∈ l, c ≠ '\n' ∧ c ≠ '\r') :
    splitLines l = [l] := by
  induction l with
  | nil => rfl
  | cons c rest ih =>
    have hc := h c (by simp)
    have hih := ih (fun x hx => h x (by simp [hx]))
    rw [splitLines.eq_def]
    simp [hc.1, hc.2, hih, consHead]

theorem splitLines_newline (l rest : Str) (h : ∀ c ∈ l, c ≠ '\n' ∧ c ≠ '\r') :
    splitLines (l ++ '\n' :: rest) = l :: splitLines rest := by
  induction l with
  | nil =>
    rw [List.nil_append, splitLines.eq_def]
    simp
  | cons c cr ih =>
    have hc := h c (by simp)
    have hih := ih (fun x hx => h x (by simp [hx]))
    rw [List.cons_append, splitLines.eq_def]
    simp [hc.1, hc.2, hih, consHead]

theorem joinNL_cons (a : Str) (ls : List Str) (h : ls ≠ []) :
    joinNL (a :: ls) = a ++ '\n' :: joinNL ls := by
  cases ls with
  | nil => exact absurd rfl h
  | cons b bs => rfl

theorem joinNL_consHead (c : Char) (ls : List Str) :
    joinNL (consHead c ls) = c :: joinNL ls := by
  cases ls with
  | nil => rfl
  | cons l ls2 =>
    cases ls2 with
    | nil => rfl
    | cons m ms => rfl

theorem joinNL_splitLines (l : Str) (h : '\r' ∉ l) : joinNL (splitLines l) = l := by
  induction l with
  | nil => rfl
  | cons c rest ih =>
    have hc : c ≠ '\r' := by intro he; exact h (by simp [he])
    have hrest : '\r' ∉ rest := by intro he; exact h (by simp [he])
    by_cases hn : c = '\n'
    · subst hn
      have hstep : splitLines ('\n' :: rest) = [] :: splitLines rest := by
        rw [splitLines.eq_def]
        simp
      rw [hstep, joinNL_cons _ _ (splitLines_ne_nil rest), ih hrest]
      rfl
    · have hstep : splitLines (c :: rest) = consHead c (splitLines rest) := by
        rw [splitLines.eq_def]
        simp [hn, hc]
      rw [hstep, joinNL_consHead, ih hrest]

theorem patchLoop_not_patched (target key lit : Str) (ins : Bool) (ls : List Str)
    (h : (patchLoop target key lit ins ls).2 = false) :
    (patchLoop target key lit ins ls).1 = ls := by
  induction ls generalizing ins with
  | nil => rfl
  | cons l rest ih =>
    simp only [patchLoop] at h ⊢
    cases hh : headerMatch l with
    | some inside =>
      simp only [hh] at h ⊢
      rw [ih _ h]
    | none =>
      simp only [hh] at h ⊢
      by_cases hin : ins
      · simp only [hin, if_true] at h ⊢
        cases hk : keyMatch key l with
        | some pr =>
          simp [hk] at h
        | none =>
          simp only [hk, hh] at h ⊢
          rw [ih _ h]
      · simp only [hin, if_false, Bool.false_eq_true] at h ⊢
        rw [ih _ h]

/-! ### The two sequential escapes equal the one-pass escape -/

theorem replace_two_pass (s : Str) :
    replaceChar dquote [bslash, dquote] (replaceChar bslash [bslash, bslash] s) =
      specEscape s := by
  have h1 : bslash ≠ dquote := by decide
  have h2 : ¬ dquote = bslash := by decide
  induction s with
  | nil => rfl
  | cons c r ih =>
    by_cases hb : c = bslash
    · subst hb
      simp [replaceChar, specEscape, specEscapeChar, ih, h1]
    · by_cases hq : c = dquote
      · subst hq
        simp [replaceChar, specEscape, specEscapeChar, ih, h2]
      · simp [replaceChar, specEscape, specEscapeChar, hb, hq, ih]

/-! ### Scanning construction lemmas and the claims -/

theorem escClassChar_meta (c : Char) (h : escClassChar c = true) :
    regexMetaChar c = true := by
  simp only [escClassChar, Bool.or_eq_true, decide_eq_true_eq] at h
  simp only [regexMetaChar, Bool.or_eq_true, decide_eq_true_eq]
  tauto

theorem escapeRegExpKey_id (key : Str) (h : ∀ x ∈ key, regexMetaChar x = false) :
    escapeRegExpKey key = key := by
  induction key with
  | nil => rfl
  | cons c rest ih =>
    have hcl : escClassChar c = false := by
      rcases Bool.eq_false_or_eq_true (escClassChar c) with hcl | hcl
      · have hm := escClassChar_meta c hcl
        rw [h c (by simp)] at hm
        exact absurd hm (by simp)
      · exact hcl
    have ht := ih (fun x hx => h x (by simp [hx]))
    rcases rest with _ | ⟨b1, rest1⟩
    · simp [escapeRegExpKey]
    rcases rest1 with _ | ⟨b2, rest2a⟩
    · simp [escapeRegExpKey, ht]
    rcases rest2a with _ | ⟨r, rest3⟩
    · simp [escapeRegExpKey, ht]
    · simp [escapeRegExpKey, hcl, ht]

theorem keyMatch_hit (ind : Str) (c : Char) (k2 rest : Str)
    (hind : ∀ x ∈ ind, isWs x = true) (hc : isWs c = false) :
    keyMatch (c :: k2) (ind ++ (c :: k2) ++ (" = ").toList ++ rest) =
      some (ind, rest.dropWhile (notEqChar '#')) := by
  have hline : ind ++ (c :: k2) ++ (" = ").toList ++ rest =
      ind ++ c :: (k2 ++ ' ' :: '=' :: ' ' :: rest) := by
    have hts : (" = ").toList = ' ' :: '=' :: ' ' :: [] := rfl
    rw [hts]
    simp
  rw [hline]
  have h1 := takeWhile_all_prefix (p := isWs) ind c (k2 ++ ' ' :: '=' :: ' ' :: rest) hind hc
  have h2 := dropWhile_all_prefix (p := isWs) ind c (k2 ++ ' ' :: '=' :: ' ' :: rest) hind hc
  have h3 : (c :: (k2 ++ ' ' :: '=' :: ' ' :: rest)).take (c :: k2).length = c :: k2 := by
    have h := List.take_left (c :: k2) (' ' :: '=' :: ' ' :: rest)
    simpa using h
  have h4 : (c :: (k2 ++ ' ' :: '=' :: ' ' :: rest)).drop (c :: k2).length =
      ' ' :: '=' :: ' ' :: rest := by
    have h := List.drop_left (c :: k2) (' ' :: '=' :: ' ' :: rest)
    simpa using h
  have h5 : (' ' :: '=' :: ' ' :: rest).dropWhile isWs = '=' :: ' ' :: rest := by
    simp [List.dropWhile_cons, isWs]
  have h6 : (' ' :: rest).dropWhile (notEqChar '#') = rest.dropWhile (notEqChar '#') := by
    simp [List.dropWhile_cons, notEqChar]
  simp only [keyMatch, h1, h2, h3, h4, h5, h6]
  simp

theorem headerMatch_not_bracket (ind : Str) (c : Char) (b : Str)
    (hind : ∀ x ∈ ind, isWs x = true) (hc : isWs c = false) (hb : c ≠ '[') :
    headerMatch (ind ++ c :: b) = none := by
  have h2 := dropWhile_all_prefix (p := isWs) ind c b hind hc
  simp only [headerMatch, h2]
  simp [hb]

theorem headerMatch_bracket (s : Str) (hs : s ≠ []) (hnb : ∀ x ∈ s, x ≠ ']') :
    headerMatch ('[' :: s ++ [']']) = some s := by
  have h0 : ('[' :: s ++ [']']).dropWhile isWs = '[' :: (s ++ [']']) := by
    simp [List.dropWhile_cons, isWs]
  have h1 : (s ++ [']']).takeWhile (notEqChar ']') = s := by
    have h := takeWhile_all_prefix (p := notEqChar ']') s ']' []
      (fun x hx => by simpa [notEqChar] using hnb x hx) (by simp [notEqChar])
    simpa using h
  have h2 : (s ++ [']']).dropWhile (notEqChar ']') = [']'] := by
    have h := dropWhile_all_prefix (p := notEqChar ']') s ']' []
      (fun x hx => by simpa [notEqChar] using hnb x hx) (by simp [notEqChar])
    simpa using h
  simp only [headerMatch, h0, h1, h2]
  simp [hs]

theorem patchScalar_single_line (ind : Str) (c : Char) (k2 rest lit : Str)
    (hind : ∀ x ∈ ind, isWs x = true)
    (hindn : ∀ x ∈ ind, x ≠ '\n' ∧ x ≠ '\r')
    (hc : isWs c = false) (hcb : c ≠ '[')
    (hk : ∀ x ∈ c :: k2, x ≠ '\n' ∧ x ≠ '\r')
    (hrest : ∀ x ∈ rest, x ≠ '\n' ∧ x ≠ '\r') :
    patchScalarInSection (ind ++ (c :: k2) ++ (" = ").toList ++ rest) [] (c :: k2) lit =
      (ind ++ (c :: k2) ++ (" = ").toList ++ lit ++ rest.dropWhile (notEqChar '#'),
        true) := by
  have hts : (" = ").toList = ' ' :: '=' :: ' ' :: [] := rfl
  have hall : ∀ x ∈ ind ++ (c :: k2) ++ (" = ").toList ++ rest, x ≠ '\n' ∧ x ≠ '\r' := by
    intro x hx
    rw [hts] at hx
    simp only [List.mem_append, List.mem_cons] at hx
    rcases hx with ((hx | hx) | hx) | hx
    · exact hindn x hx
    · exact hk x (by simpa using hx)
    · have hx3 : x = ' ' ∨ x = '=' ∨ x = ' ' := by simpa using hx
      rcases hx3 with h | h | h <;> subst h <;> exact ⟨by decide, by decide⟩
    · exact hrest x hx
  have hsingle := splitLines_single _ hall
  have hline : ind ++ (c :: k2) ++ (" = ").toList ++ rest =
      ind ++ c :: (k2 ++ ' ' :: '=' :: ' ' :: rest) := by
    rw [hts]; simp
  have hhdr : headerMatch (ind ++ (c :: k2) ++ (" = ").toList ++ rest) = none := by
    rw [hline]
    exact headerMatch_not_bracket ind c _ hind hc hcb
  have hkm := keyMatch_hit ind c k2 rest hind hc
  simp only [patchScalarInSection, hsingle, patchLoop, hhdr, hkm]
  simp [joinNL, joinDot, rewriteLine, hts]

/-- Claim C9: when the same key appears on two assignment lines within the target section, the line patcher rewrites only the first occurrence, leaves the second untouched, and reports patched = true.  The key is required to be free of regex syntax characters: the key escape in the source is ineffective (see escapeRegExpKey), so only such keys are matched literally by the constructed pattern; a key holding a metacharacter acts as a pattern operator instead and rewrites nothing it does not match. -/
theorem claim9_duplicate_key_first_only (s : Str) (c : Char) (k2 a b lit : Str)
    (hs : s ≠ []) (hnb : ∀ x ∈ s, x ≠ ']')
    (hsn : ∀ x ∈ s, x ≠ '\n' ∧ x ≠ '\r')
    (htr : trimWs s = s)
    (hc : isWs c = false) (hcb : c ≠ '[')
    (hk : ∀ x ∈ c :: k2, x ≠ '\n' ∧ x ≠ '\r')
    (hkey : ∀ x ∈ c :: k2, regexMetaChar x = false)
    (ha : ∀ x ∈ a, x ≠ '\n' ∧ x ≠ '\r')
    (hb : ∀ x ∈ b, x ≠ '\n' ∧ x ≠ '\r') :
    patchScalarInSection
        (('[' :: s ++ [']']) ++ '\n' ::
          (((c :: k2) ++ (" = ").toList ++ a) ++ '\n' ::
            ((c :: k2) ++ (" = ").toList ++ b))) [s] (c :: k2) lit =
      (('[' :: s ++ [']']) ++ '\n' ::
          (((c :: k2) ++ (" = ").toList ++ lit ++ a.dropWhile (notEqChar '#')) ++ '\n' ::
            ((c :: k2) ++ (" = ").toList ++ b)), true) := by
  have hts : (" = ").toList = ' ' :: '=' :: ' ' :: [] := rfl
  have hhdrchars : ∀ x ∈ '[' :: s ++ [']'], x ≠ '\n' ∧ x ≠ '\r' := by
    intro x hx
    simp only [List.cons_append, List.mem_cons, List.mem_append, List.mem_singleton] at hx
    rcases hx with h | h | h
    · subst h; exact ⟨by decide, by decide⟩
    · exact hsn x h
    · rcases h with h | h
      · subst h; exact ⟨by decide, by decide⟩
      · exact absurd h (List.not_mem_nil x)
  have hlchars : ∀ (v : Str), (∀ x ∈ v, x ≠ '\n' ∧ x ≠ '\r') →
      ∀ x ∈ (c :: k2) ++ (" = ").toList ++ v, x ≠ '\n' ∧ x ≠ '\r' := by
    intro v hv x hx
    rw [hts] at hx
    simp only [List.mem_append, List.mem_cons] at hx
    rcases hx with (hx | hx) | hx
    · exact hk x (by simpa using hx)
    · have hx3 : x = ' ' ∨ x = '=' ∨ x = ' ' := by simpa using hx
      rcases hx3 with h | h | h <;> subst h <;> exact ⟨by decide, by decide⟩
    · exact hv x hx
  have hsplit : splitLines
      (('[' :: s ++ [']']) ++ '\n' ::
        (((c :: k2) ++ (" = ").toList ++ a) ++ '\n' ::
          ((c :: k2) ++ (" = ").toList ++ b))) =
      ['[' :: s ++ [']'], (c :: k2) ++ (" = ").toList ++ a,
        (c :: k2) ++ (" = ").toList ++ b] := by
    rw [splitLines_newline _ _ hhdrchars, splitLines_newline _ _ (hlchars a ha),
      splitLines_single _ (hlchars b hb)]
  have hbr : headerMatch ('[' :: s ++ [']']) = some s := headerMatch_bracket s hs hnb
  have hshape : ∀ (v : Str), (c :: k2) ++ (" = ").toList ++ v =
      ([] : Str) ++ c :: (k2 ++ ' ' :: '=' :: ' ' :: v) := by
    intro v
    rw [hts]
    simp
  have hhm1 : headerMatch ((c :: k2) ++ (" = ").toList ++ a) = none := by
    rw [hshape a]
    exact headerMatch_not_bracket [] c _ (by simp) hc hcb
  have hkm : keyMatch (c :: k2) ((c :: k2) ++ (" = ").toList ++ a) =
      some ([], a.dropWhile (notEqChar '#')) := by
    have h := keyMatch_hit [] c k2 a (by simp) hc
    simpa using h
  simp only [patchScalarInSection, hsplit, patchLoop, hbr, hhm1, hkm, joinDot, htr]
  simp [joinNL, rewriteLine]

/-- Claim C4 (code bug): patching the line port = 8080 # listen port with literal 9090 actually yields port = 9090# listen port: the greedy value group of the assignment regex swallows the whitespace before the comment, so the spacing before the inline comment is lost, contrary to the claim. -/
theorem claim4_comment_spacing_code_result :
    patchScalarInSection (("port = 8080 # listen port").toList) [] (("port").toList)
        (("9090").toList) =
      ((("port = 9090# listen port").toList), true) ∧
      ("port = 9090# listen port").toList ≠ ("port = 9090 # listen port").toList :=
  ⟨by decide, by decide⟩

/-- Claim C6 (code bug): in a document with sections [b], [a], [b] the scan leaves the target section at [a] without stopping (the break in the source is dead code), re-enters the second [b] block and patches its host line, reporting patched = true, contrary to the claim that the attempt stops unpatched at the first new header. -/
theorem claim6_section_rescan_code_result :
    patchScalarInSection (("[b]\n[a]\nhost = 1\n[b]\nhost = 1").toList) [("b").toList]
        (("host").toList) (("2").toList) =
      ((("[b]\n[a]\nhost = 1\n[b]\nhost = 2").toList), true) := by
  decide

/-- Counterexample to literal Claim C5: on an input containing a CRLF pair, a failed patch still changes the text, normalising CRLF to LF, so the output is not always equal to the input character for character. -/
theorem claim5_crlf_counterexample :
    patchScalarInSection (("a\r\nb").toList) [("x").toList] (("k").toList) (("1").toList) =
      ((("a\nb").toList), false) ∧ ("a\nb").toList ≠ ("a\r\nb").toList :=
  ⟨by decide, by decide⟩

/-- Claim C5 (amended): when the input text contains no carriage return and the line patcher reports patched = false, the output text equals the input text character for character. -/
theorem claim5_patch_miss_preserves_text (text : Str) (path : List Str) (key lit : Str)
    (hcr : '\r' ∉ text)
    (hp : (patchScalarInSection text path key lit).2 = false) :
    (patchScalarInSection text path key lit).1 = text := by
  simp only [patchScalarInSection] at hp ⊢
  rw [patchLoop_not_patched _ _ _ _ _ hp]
  exact joinNL_splitLines text hcr

/-- Witness for Claim C5 on a concrete miss: the section is absent and the text is returned unchanged. -/
theorem claim5_patch_miss_witness :
    (patchScalarInSection (("a\nb").toList) [("x").toList] (("k").toList)
        (("1").toList)).1 = ("a\nb").toList :=
  claim5_patch_miss_preserves_text _ _ _ _ (by decide) (by decide)

/-- Claim C10: for an assignment line whose value contains a hash character, the patcher treats only the text before the first hash as the value segment, and the rewritten line is the indentation, the key, a canonical space-equals-space, the new literal, then the old tail from the first hash onward.  The key is required to be free of regex syntax characters: the key escape in the source is ineffective (see escapeRegExpKey), so only such keys are matched literally by the constructed pattern. -/
theorem claim10_value_after_hash_kept (ind : Str) (c : Char) (k2 pre post lit : Str)
    (hind : ∀ x ∈ ind, isWs x = true)
    (hindn : ∀ x ∈ ind, x ≠ '\n' ∧ x ≠ '\r')
    (hc : isWs c = false) (hcb : c ≠ '[')
    (hk : ∀ x ∈ c :: k2, x ≠ '\n' ∧ x ≠ '\r')
    (hkey : ∀ x ∈ c :: k2, regexMetaChar x = false)
    (hpre : ∀ x ∈ pre, x ≠ '\n' ∧ x ≠ '\r')
    (hpren : ∀ x ∈ pre, x ≠ '#')
    (hpost : ∀ x ∈ post, x ≠ '\n' ∧ x ≠ '\r') :
    patchScalarInSection (ind ++ (c :: k2) ++ (" = ").toList ++ (pre ++ '#' :: post)) []
        (c :: k2) lit =
      (ind ++ (c :: k2) ++ (" = ").toList ++ lit ++ '#' :: post, true) := by
  have hrest : ∀ x ∈ pre ++ '#' :: post, x ≠ '\n' ∧ x ≠ '\r' := by
    intro x hx
    simp only [List.mem_append, List.mem_cons] at hx
    rcases hx with hx | hx | hx
    · exact hpre x hx
    · subst hx; exact ⟨by decide, by decide⟩
    · exact hpost x hx
  have h := patchScalar_single_line ind c k2 (pre ++ '#' :: post) lit hind hindn hc hcb hk hrest
  have hdw : (pre ++ '#' :: post).dropWhile (notEqChar '#') = '#' :: post := by
    have hd := dropWhile_all_prefix (p := notEqChar '#') pre '#' post
      (fun x hx => by simpa [notEqChar] using hpren x hx) (by simp [notEqChar])
    simpa using hd
  rw [h, hdw]

/-- Witness for Claim C10: patching a line whose double-quoted value contains a hash keeps the tail of the old value after the new literal. -/
theorem claim10_value_after_hash_witness :
    patchScalarInSection (("name = \"a#b\"").toList) [] (("name").toList)
        (("\"xy\"").toList) =
      ((("name = \"xy\"#b\"").toList), true) := by
  have he : ("name = \"a#b\"").toList =
      ([] : Str) ++ ('n' :: ("ame").toList) ++ (" = ").toList ++
        (("\"a").toList ++ '#' :: ("b\"").toList) := by decide
  have hkey : ("name").toList = 'n' :: ("ame").toList := by decide
  rw [he, hkey]
  rw [claim10_value_after_hash_kept [] 'n' (("ame").toList) (("\"a").toList)
    (("b\"").toList) (("\"xy\"").toList) (by decide) (by decide) (by decide) (by decide)
    (by decide) (by decide) (by decide) (by decide) (by decide)]
  decide

/-- Witness for Claim C9 on a concrete document with a duplicated host key. -/
theorem claim9_duplicate_key_witness :
    patchScalarInSection (("[srv]\nhost = 1\nhost = 1").toList) [("srv").toList]
        (("host").toList) (("2").toList) =
      ((("[srv]\nhost = 2\nhost = 1").toList), true) := by
  have he : ("[srv]\nhost = 1\nhost = 1").toList =
      ('[' :: ("srv").toList ++ [']']) ++ '\n' ::
        ((('h' :: ("ost").toList) ++ (" = ").toList ++ ("1").toList) ++ '\n' ::
          (('h' :: ("ost").toList) ++ (" = ").toList ++ ("1").toList)) := by decide
  have hkey : ("host").toList = 'h' :: ("ost").toList := by decide
  rw [he, hkey]
  rw [claim9_duplicate_key_first_only (("srv").toList) 'h' (("ost").toList) (("1").toList)
    (("1").toList) (("2").toList) (by decide) (by decide) (by decide) (by decide)
    (by decide) (by decide) (by decide) (by decide) (by decide) (by decide)]
  decide

theorem walkPatchGo_nil (old new : List (Str × Json)) (path : List Str) (text : Str) :
    walkPatchGo old new path [] text = (text, false) := by
  rw [walkPatchGo.eq_def]

theorem walkPatchGo_cons (old new : List (Str × Json)) (path : List Str) (k : Str)
    (ks : List Str) (text : Str) :
    walkPatchGo old new path (k :: ks) text =
      ((walkPatchGo old new path ks (walkStep old new path k text).1).1,
        (walkStep old new path k text).2 ||
          (walkPatchGo old new path ks (walkStep old new path k text).1).2) := by
  rw [walkPatchGo.eq_def]
  rcases hSN : scalarOfOpt (jsLookup new k) with _ | ns <;>
    rcases hSO : scalarOfOpt (jsLookup old k) with _ | os <;>
      simp only [walkStep, walkPatch, hSN, hSO]
  all_goals
    split
    next nk ok hN hO => simp only [hN, hO]
    next hno =>
      rcases hTN : asTable (jsLookup new k) with _ | nk <;>
        rcases hTO : asTable (jsLookup old k) with _ | ok <;>
          simp only [hTN, hTO] <;> try rfl
      exact (hno nk ok hTN hTO).elim

/-- Claim C2 (amended): idempotence holds for canonical single-assignment documents whose parts survive the patcher faithfully: if the document is exactly key, space, equals, space, literal, where the literal is the canonical scalar text of the value bound to that key, the key starts with a non-whitespace non-bracket character, is free of newlines and of regex syntax characters (the key escape in the source being ineffective, see escapeRegExpKey, other keys are not matched literally and the save falls back), and the literal is free of newlines and of hash characters (a hash inside the literal is treated as an inline comment start and the rewritten line is mangled), then a preserve save with newTree equal to oldTree returns the text unchanged with preserved = true. -/
theorem claim2_canonical_single_assignment (fb : List (Str × Json) → Str) (c : Char)
    (k2 lit : Str) (v : Json)
    (hv : valueToTomlScalar v = some lit)
    (hc : isWs c = false) (hcb : c ≠ '[')
    (hk : ∀ x ∈ c :: k2, x ≠ '\n' ∧ x ≠ '\r')
    (hkey : ∀ x ∈ c :: k2, regexMetaChar x = false)
    (hlit : ∀ x ∈ lit, x ≠ '\n' ∧ x ≠ '\r')
    (hlith : ∀ x ∈ lit, x ≠ '#') :
    handleSavePreserve fb ((c :: k2) ++ (" = ").toList ++ lit) [((c :: k2), v)]
        [((c :: k2), v)] =
      ((c :: k2) ++ (" = ").toList ++ lit, true) := by
  have hpatch := patchScalar_single_line [] c k2 lit lit (by simp) (by simp) hc hcb hk hlit
  have hdw : lit.dropWhile (notEqChar '#') = [] :=
    dropWhile_all_nil lit (fun x hx => by simpa [notEqChar] using hlith x hx)
  have hpatch2 : patchScalarInSection ((c :: k2) ++ (" = ").toList ++ lit) [] (c :: k2)
      lit = ((c :: k2) ++ (" = ").toList ++ lit, true) := by
    rw [hdw] at hpatch
    simpa using hpatch
  have hlu : jsLookup [((c :: k2), v)] (c :: k2) = some v := by simp [jsLookup]
  have hstep : walkStep [((c :: k2), v)] [((c :: k2), v)] [] (c :: k2)
      ((c :: k2) ++ (" = ").toList ++ lit) = ((c :: k2) ++ (" = ").toList ++ lit, true) := by
    simp only [walkStep, hlu, scalarOfOpt, hv]
    exact hpatch2
  have hdk : dedupKeys (keysOf [((c :: k2), v)] ++ keysOf [((c :: k2), v)]) =
      [c :: k2] := by
    simp [dedupKeys, dedupGo, keysOf]
  simp only [handleSavePreserve, walkPatch, hdk, walkPatchGo_cons, walkPatchGo_nil, hstep]
  simp

/-- Witness for Claim C2 on the canonical document port = 8080. -/
theorem claim2_canonical_witness :
    handleSavePreserve fallbackStub (("port = 8080").toList)
        [((("port").toList), Json.num (.int 8080))]
        [((("port").toList), Json.num (.int 8080))] =
      ((("port = 8080").toList), true) := by
  have he : ("port = 8080").toList =
      ('p' :: ("ort").toList) ++ (" = ").toList ++ ("8080").toList := by decide
  have hkey : ("port").toList = 'p' :: ("ort").toList := by decide
  rw [he, hkey]
  rw [claim2_canonical_single_assignment fallbackStub 'p' (("ort").toList)
    (("8080").toList) (Json.num (.int 8080)) (by decide) (by decide) (by decide)
    (by decide) (by decide) (by decide) (by decide)]

/-- Counterexample to literal Claim C2: the document a=1 is rewritten to a = 1 by a save in which newTree equals oldTree, because the patcher always re-emits matched lines in canonical spacing, so the output is not always equal to rawText. -/
theorem claim2_idempotence_counterexample :
    handleSavePreserve fallbackStub (("a=1").toList)
        [((("a").toList), Json.num (.int 1))] [((("a").toList), Json.num (.int 1))] =
      ((("a = 1").toList), true) ∧
    ("a = 1").toList ≠ ("a=1").toList := by
  constructor
  · have hdk : dedupKeys (keysOf [((("a").toList), Json.num (.int 1))] ++
        keysOf [((("a").toList), Json.num (.int 1))]) = [("a").toList] := by decide
    have hstep : walkStep [((("a").toList), Json.num (.int 1))]
        [((("a").toList), Json.num (.int 1))] [] (("a").toList) (("a=1").toList) =
        ((("a = 1").toList), true) := by decide
    simp only [handleSavePreserve, walkPatch, hdk, walkPatchGo_cons, walkPatchGo_nil,
      hstep]
    simp
  · decide

/-- Counterexample to literal Claim C3: a key whose canonical scalar literal is identical in the old and new trees is still patched (the text a=1 becomes a = 1), so instructions are not emitted only for differing literals. -/
theorem claim3_equal_literal_patch_counterexample :
    walkPatch (("a=1").toList) [((("a").toList), Json.num (.int 1))]
        [((("a").toList), Json.num (.int 1))] [] = ((("a = 1").toList), true) ∧
    ("a = 1").toList ≠ ("a=1").toList := by
  constructor
  · have hdk : dedupKeys (keysOf [((("a").toList), Json.num (.int 1))] ++
        keysOf [((("a").toList), Json.num (.int 1))]) = [("a").toList] := by decide
    have hstep : walkStep [((("a").toList), Json.num (.int 1))]
        [((("a").toList), Json.num (.int 1))] [] (("a").toList) (("a=1").toList) =
        ((("a = 1").toList), true) := by decide
    simp only [walkPatch, hdk, walkPatchGo_cons, walkPatchGo_nil, hstep]
    simp
  · decide

/-- Claim C1 (amended): the fallback serializer is forced exactly when the patch walk applies no instruction: if the walk reports patchedAny = true the save returns the patched text with preserved = true, even when the diff contains structural changes; if it reports patchedAny = false the save returns the fallback text with preserved = false. -/
theorem claim1_fallback_iff_no_instruction_applied (fb : List (Str × Json) → Str)
    (raw : Str) (old new : List (Str × Json)) :
    ((walkPatch raw old new []).2 = true →
      handleSavePreserve fb raw old new = ((walkPatch raw old new []).1, true)) ∧
    ((walkPatch raw old new []).2 = false →
      handleSavePreserve fb raw old new = (fb new, false)) := by
  constructor <;> intro h <;> simp [handleSavePreserve, h]

/-- Counterexample to literal Claim C1: a save whose diff contains an array structural change (an array value differing between the trees) still returns preserved = true, because a scalar key elsewhere was patched; the engine never forces the fallback on structural change alone. -/
theorem claim1_structural_change_counterexample :
    handleSavePreserve fallbackStub (("a = 1\narr = [1]").toList)
        [((("a").toList), Json.num (.int 1)),
          ((("arr").toList), Json.arr [Json.num (.int 1)])]
        [((("a").toList), Json.num (.int 2)),
          ((("arr").toList), Json.arr [Json.num (.int 1), Json.num (.int 2)])] =
      ((("a = 2\narr = [1]").toList), true) := by
  have hdk : dedupKeys (keysOf [((("a").toList), Json.num (.int 1)),
        ((("arr").toList), Json.arr [Json.num (.int 1)])] ++
      keysOf [((("a").toList), Json.num (.int 2)),
        ((("arr").toList), Json.arr [Json.num (.int 1), Json.num (.int 2)])]) =
      [("a").toList, ("arr").toList] := by decide
  have hstep1 : walkStep [((("a").toList), Json.num (.int 1)),
        ((("arr").toList), Json.arr [Json.num (.int 1)])]
      [((("a").toList), Json.num (.int 2)),
        ((("arr").toList), Json.arr [Json.num (.int 1), Json.num (.int 2)])] []
      (("a").toList) (("a = 1\narr = [1]").toList) =
      ((("a = 2\narr = [1]").toList), true) := by decide
  have hstep2 : walkStep [((("a").toList), Json.num (.int 1)),
        ((("arr").toList), Json.arr [Json.num (.int 1)])]
      [((("a").toList), Json.num (.int 2)),
        ((("arr").toList), Json.arr [Json.num (.int 1), Json.num (.int 2)])] []
      (("arr").toList) (("a = 2\narr = [1]").toList) =
      ((("a = 2\narr = [1]").toList), false) := by decide
  simp only [handleSavePreserve, walkPatch, hdk, walkPatchGo_cons, walkPatchGo_nil,
    hstep1, hstep2]
  simp

/-- Witness for Claim C1 applying the amended theorem at a concrete save in which one scalar was patched. -/
theorem claim1_fallback_iff_witness :
    handleSavePreserve fallbackStub (("a = 1\narr = [1]").toList)
        [((("a").toList), Json.num (.int 1)),
          ((("arr").toList), Json.arr [Json.num (.int 1)])]
        [((("a").toList), Json.num (.int 2)),
          ((("arr").toList), Json.arr [Json.num (.int 1), Json.num (.int 2)])] =
      ((walkPatch (("a = 1\narr = [1]").toList)
          [((("a").toList), Json.num (.int 1)),
            ((("arr").toList), Json.arr [Json.num (.int 1)])]
          [((("a").toList), Json.num (.int 2)),
            ((("arr").toList), Json.arr [Json.num (.int 1), Json.num (.int 2)])] []).1,
        true) := by
  apply (claim1_fallback_iff_no_instruction_applied fallbackStub _ _ _).1
  have hdk : dedupKeys (keysOf [((("a").toList), Json.num (.int 1)),
        ((("arr").toList), Json.arr [Json.num (.int 1)])] ++
      keysOf [((("a").toList), Json.num (.int 2)),
        ((("arr").toList), Json.arr [Json.num (.int 1), Json.num (.int 2)])]) =
      [("a").toList, ("arr").toList] := by decide
  have hstep1 : walkStep [((("a").toList), Json.num (.int 1)),
        ((("arr").toList), Json.arr [Json.num (.int 1)])]
      [((("a").toList), Json.num (.int 2)),
        ((("arr").toList), Json.arr [Json.num (.int 1), Json.num (.int 2)])] []
      (("a").toList) (("a = 1\narr = [1]").toList) =
      ((("a = 2\narr = [1]").toList), true) := by decide
  simp only [walkPatch, hdk, walkPatchGo_cons, hstep1]
  simp

/-- Claim C7: the scalar serializer agrees with the spec mapping on every value: true or false for booleans, default decimal text for finite numbers and 0 for non-finite numbers, double-quoted strings with backslash and double-quote escaped, the literal null for the null value, and the non-literal signal none exactly on composites. -/
theorem claim7_scalar_serializer_refines_spec (v : Json) :
    valueToTomlScalar v = specScalarLiteral v ∧
      (valueToTomlScalar v = none ↔ v.isComposite = true) := by
  constructor
  · cases v with
    | null => rfl
    | bool b => rfl
    | num n => rfl
    | str s =>
      simp [valueToTomlScalar, specScalarLiteral, quoteTomlString, replace_two_pass]
    | arr a => rfl
    | table t => rfl
  · cases v <;> simp [valueToTomlScalar, Json.isComposite]

/-- Witness for Claim C7 at a concrete string value containing a quote and a backslash. -/
theorem claim7_scalar_serializer_witness :
    valueToTomlScalar (Json.str (("a\"b\\c").toList)) =
      specScalarLiteral (Json.str (("a\"b\\c").toList)) ∧
    (valueToTomlScalar (Json.arr []) = none ↔ (Json.arr []).isComposite = true) :=
  ⟨(claim7_scalar_serializer_refines_spec _).1,
    (claim7_scalar_serializer_refines_spec _).2⟩

theorem valueTailSplit_append (l : Str) :
    (valueTailSplit l).1 ++ (valueTailSplit l).2 = l := by
  cases l with
  | nil => rfl
  | cons v0 vr =>
    simp only [valueTailSplit]
    have h1 : dropTrailWs (vr.takeWhile (notEqChar '#')) ++
        takeTrailWs (vr.takeWhile (notEqChar '#')) =
        vr.takeWhile (notEqChar '#') := by
      unfold dropTrailWs takeTrailWs
      rw [← List.reverse_append, List.takeWhile_append_dropWhile, List.reverse_reverse]
    calc (v0 :: dropTrailWs (vr.takeWhile (notEqChar '#'))) ++
          (takeTrailWs (vr.takeWhile (notEqChar '#')) ++
            vr.dropWhile (notEqChar '#')) =
        v0 :: ((dropTrailWs (vr.takeWhile (notEqChar '#')) ++
          takeTrailWs (vr.takeWhile (notEqChar '#'))) ++
            vr.dropWhile (notEqChar '#')) := by simp
      _ = v0 :: vr := by rw [h1, List.takeWhile_append_dropWhile]

theorem assignValuePart_decomp (ws0 : Str) (c0 : Char) (beforeEq : Str) (e : Char)
    (afterEq lhs v tail : Str)
    (h : assignValuePart ws0 c0 beforeEq e afterEq = some (lhs, v, tail)) :
    lhs ++ v ++ tail = ws0 ++ c0 :: beforeEq ++ e :: afterEq := by
  have hae : afterEq = afterEq.takeWhile isWs ++ afterEq.dropWhile isWs :=
    (List.takeWhile_append_dropWhile _ _).symm
  cases hra : afterEq.dropWhile isWs with
  | nil =>
    simp only [assignValuePart, hra] at h
    cases hwr : (afterEq.takeWhile isWs).reverse with
    | nil => rw [hwr] at h; simp at h
    | cons wLast wsInitRev =>
      rw [hwr] at h
      have hwsa : afterEq.takeWhile isWs = wsInitRev.reverse ++ [wLast] := by
        have h3 := congrArg List.reverse hwr
        simpa using h3
      simp only [Option.some.injEq, Prod.mk.injEq] at h
      obtain ⟨hl, hv2, ht⟩ := h
      subst hl hv2 ht
      conv_rhs => rw [hae, hra, hwsa]
      simp [valueTailSplit, dropTrailWs, takeTrailWs]
  | cons r0 rest2 =>
    simp only [assignValuePart, hra] at h
    by_cases hcls : r0 = '#' ∨ r0 = dquote ∨ r0 = squote ∨ r0 = '[' ∨ r0 = Char.ofNat 123
    · rw [if_pos hcls] at h
      cases hwr : (afterEq.takeWhile isWs).reverse with
      | nil => rw [hwr] at h; simp at h
      | cons wLast wsInitRev =>
        rw [hwr] at h
        have hwsa : afterEq.takeWhile isWs = wsInitRev.reverse ++ [wLast] := by
          have h3 := congrArg List.reverse hwr
          simpa using h3
        simp only [Option.some.injEq, Prod.mk.injEq] at h
        obtain ⟨hl, hv2, ht⟩ := h
        subst hl hv2 ht
        conv_rhs => rw [hae, hra, hwsa]
        have hvt := valueTailSplit_append (wLast :: r0 :: rest2)
        calc (ws0 ++ c0 :: beforeEq ++ e :: wsInitRev.reverse) ++
              (valueTailSplit (wLast :: r0 :: rest2)).1 ++
                (valueTailSplit (wLast :: r0 :: rest2)).2 =
            ws0 ++ c0 :: beforeEq ++ e :: (wsInitRev.reverse ++
              ((valueTailSplit (wLast :: r0 :: rest2)).1 ++
                (valueTailSplit (wLast :: r0 :: rest2)).2)) := by
              simp [List.append_assoc]
          _ = ws0 ++ c0 :: beforeEq ++ e :: (wsInitRev.reverse ++ (wLast :: r0 :: rest2)) := by
              rw [hvt]
          _ = ws0 ++ c0 :: beforeEq ++ e :: (wsInitRev.reverse ++ [wLast] ++ (r0 :: rest2)) := by
              simp
    · rw [if_neg hcls] at h
      simp only [Option.some.injEq, Prod.mk.injEq] at h
      obtain ⟨hl, hv2, ht⟩ := h
      subst hl hv2 ht
      conv_rhs => rw [hae, hra]
      have hvt := valueTailSplit_append (r0 :: rest2)
      calc (ws0 ++ c0 :: beforeEq ++ e :: afterEq.takeWhile isWs) ++
            (valueTailSplit (r0 :: rest2)).1 ++ (valueTailSplit (r0 :: rest2)).2 =
          ws0 ++ c0 :: beforeEq ++ e :: (afterEq.takeWhile isWs ++
            ((valueTailSplit (r0 :: rest2)).1 ++ (valueTailSplit (r0 :: rest2)).2)) := by
            simp [List.append_assoc]
        _ = ws0 ++ c0 :: beforeEq ++ e :: (afterEq.takeWhile isWs ++ (r0 :: rest2)) := by
            rw [hvt]

theorem assignMatch_decomp (line lhs v tail : Str)
    (h : assignMatch line = some (lhs, v, tail)) : line = lhs ++ v ++ tail := by
  have hline0 : line = line.takeWhile isWs ++ line.dropWhile isWs :=
    (List.takeWhile_append_dropWhile _ _).symm
  cases hdw : line.dropWhile isWs with
  | nil =>
    simp only [assignMatch, hdw] at h
    simp at h
  | cons c0 r1 =>
    simp only [assignMatch, hdw] at h
    by_cases hc0 : c0 = '#'
    · rw [if_pos hc0] at h
      simp at h
    · rw [if_neg hc0] at h
      cases heq : r1.dropWhile (notEqChar '=') with
      | nil => rw [heq] at h; simp at h
      | cons e afterEq =>
        rw [heq] at h
        cases hbe : (r1.takeWhile (notEqChar '=')).all isWs with
        | true => rw [hbe] at h; simp at h
        | false =>
          rw [hbe] at h
          simp only [Bool.false_eq_true, if_false] at h
          have hd := assignValuePart_decomp _ _ _ _ _ _ _ _ h
          rw [hd]
          conv_lhs => rw [hline0, hdw]
          have hr1 : r1 = r1.takeWhile (notEqChar '=') ++ e :: afterEq := by
            conv_lhs => rw [← List.takeWhile_append_dropWhile (notEqChar '=') r1, heq]
          conv_lhs => rw [hr1]
          simp [List.append_assoc]

/-- Claim C8 (amended): for input text free of carriage returns, the normalizer alters only assignment value text that is an ambiguous bare string.  On each line of the split input: a section header passes through; a line not matching the assignment pattern (comment lines included) passes through; a matching assignment line decomposes into left-hand side, value part and comment tail and passes through unless the value part looks like a bare string, in which case exactly the value part is replaced by the double-quoted escape of its trimmed content.  A document none of whose lines is altered is returned unchanged.  For input holding CRLF line endings the unamended claim fails: the normalizer rewrites them to LF even when every line passes through (see the counterexample). -/
theorem claim8_normalizer_only_bare_values (text : Str) (hcr : '\r' ∉ text) :
    ((∀ l ∈ splitLines text, relaxLine l = l) → relaxTomlText text = text) ∧
    (∀ line ∈ splitLines text,
      ((headerMatch line).isSome = true → relaxLine line = line) ∧
      (assignMatch line = none → relaxLine line = line) ∧
      (∀ lhs v tail, assignMatch line = some (lhs, v, tail) →
        line = lhs ++ v ++ tail ∧
        ((headerMatch line).isSome = false →
          (looksLikeBareString v = false → relaxLine line = line) ∧
          (looksLikeBareString v = true →
            relaxLine line = lhs ++ quoteTomlString (trimWs v) ++ tail))) ∧
      (∀ r, line.dropWhile isWs = '#' :: r → relaxLine line = line)) := by
  constructor
  · intro hall
    have hmap : ∀ (ls : List Str), (∀ l ∈ ls, relaxLine l = l) →
        ls.map relaxLine = ls := by
      intro ls
      induction ls with
      | nil => intro _; rfl
      | cons a t ih2 =>
        intro hls
        simp only [List.map_cons]
        rw [hls a (by simp), ih2 (fun x hx => hls x (by simp [hx]))]
    simp only [relaxTomlText]
    rw [hmap _ hall, joinNL_splitLines text hcr]
  · intro line _
    refine ⟨?_, ?_, ?_, ?_⟩
    · intro hh
      simp [relaxLine, hh]
    · intro ha
      by_cases hh : (headerMatch line).isSome <;> simp [relaxLine, ha, hh]
    · intro lhs v tail ha
      refine ⟨assignMatch_decomp line lhs v tail ha, ?_⟩
      intro hh
      constructor <;> intro hb <;> simp [relaxLine, hh, ha, hb]
    · intro r hr
      have ha : assignMatch line = none := by simp [assignMatch, hr]
      by_cases hh : (headerMatch line).isSome <;> simp [relaxLine, ha, hh]

/-- Witness for Claim C8: a document made of a numeric assignment, a comment line and a section header is returned unchanged in full, and a bare-string assignment line gets exactly its value part quoted. -/
theorem claim8_normalizer_witness :
    relaxTomlText (("port = 8080\n# c\n[srv]").toList) =
      ("port = 8080\n# c\n[srv]").toList ∧
    relaxLine (("key = hello world # note").toList) =
      ("key = \"hello world\" # note").toList := by
  constructor
  · exact (claim8_normalizer_only_bare_values (("port = 8080\n# c\n[srv]").toList)
      (by decide)).1 (by decide)
  · have h := ((claim8_normalizer_only_bare_values
        (("key = hello world # note").toList) (by decide)).2
        (("key = hello world # note").toList) (by decide)).2.2.1
    have h2 := ((h (("key = ").toList) (("hello world").toList)
        ((" # note").toList) (by decide)).2 (by decide)).2 (by decide)
    rw [h2]
    decide

/-- Counterexample to literal Claim C8: a CRLF document whose every line the normalizer leaves unchanged still comes out altered, because the normalizer splits the raw text on CRLF or LF and joins with LF, rewriting the line endings of otherwise untouched text. -/
theorem claim8_crlf_counterexample :
    relaxTomlText (("port = 8080\r\nhost = 1").toList) =
      ("port = 8080\nhost = 1").toList ∧
    (∀ l ∈ splitLines (("port = 8080\r\nhost = 1").toList), relaxLine l = l) ∧
    ("port = 8080\nhost = 1").toList ≠ ("port = 8080\r\nhost = 1").toList := by
  refine ⟨by decide, by decide, by decide⟩

theorem jsLookup_sizeOf (kvs : List (Str × Json)) (q : Str) (v : Json)
    (h : jsLookup kvs q = some v) : sizeOf v < sizeOf kvs := by
  induction kvs with
  | nil => simp [jsLookup] at h
  | cons p rest ih =>
    obtain ⟨k1, w⟩ := p
    by_cases hk : k1 = q
    · simp only [jsLookup, if_pos hk, Option.some.injEq] at h
      subst h
      simp only [List.cons.sizeOf_spec, Prod.mk.sizeOf_spec]
      omega
    · simp only [jsLookup, if_neg hk] at h
      have := ih h
      simp only [List.cons.sizeOf_spec, Prod.mk.sizeOf_spec]
      omega

theorem asTable_eq_some (o : Option Json) (t : List (Str × Json))
    (h : asTable o = some t) : o = some (Json.table t) := by
  cases o with
  | none => simp [asTable] at h
  | some v =>
    cases v with
    | table kvs => simp only [asTable, Option.some.injEq] at h; rw [h]
    | null => simp [asTable] at h
    | bool b => simp [asTable] at h
    | num n => simp [asTable] at h
    | str s => simp [asTable] at h
    | arr a => simp [asTable] at h

theorem asTable_sizeOf (new : List (Str × Json)) (k : Str) (nk : List (Str × Json))
    (h : asTable (jsLookup new k) = some nk) : sizeOf nk < sizeOf new := by
  have hv := jsLookup_sizeOf new k _ (asTable_eq_some _ _ h)
  have h2 : sizeOf nk < sizeOf (Json.table nk) := by
    simp only [Json.table.sizeOf_spec]
    omega
  omega

theorem sizeOf_table_pos (l : List (Str × Json)) : 1 ≤ sizeOf l := by
  cases l <;> simp <;> omega

theorem jsLookup_mem_keys (kvs : List (Str × Json)) (q : Str) (v : Json)
    (h : jsLookup kvs q = some v) : q ∈ keysOf kvs := by
  induction kvs with
  | nil => simp [jsLookup] at h
  | cons p rest ih =>
    obtain ⟨k1, w⟩ := p
    by_cases hk : k1 = q
    · simp [keysOf, hk]
    · simp only [jsLookup, if_neg hk] at h
      have := ih h
      simp only [keysOf, List.map_cons, List.mem_cons]
      right
      simpa [keysOf] using this

theorem mem_dedupGo (x : Str) (l : List Str) :
    ∀ seen, x ∈ dedupGo l seen ↔ x ∈ l ∧ x ∉ seen := by
  induction l with
  | nil => intro seen; simp [dedupGo]
  | cons k ks ih =>
    intro seen
    by_cases hk : k ∈ seen
    · simp only [dedupGo, if_pos hk, ih, List.mem_cons]
      constructor
      · rintro ⟨hx, hns⟩
        exact ⟨Or.inr hx, hns⟩
      · rintro ⟨hx | hx, hns⟩
        · subst hx; exact absurd hk hns
        · exact ⟨hx, hns⟩
    · simp only [dedupGo, if_neg hk, List.mem_cons, ih]
      constructor
      · rintro (hx | ⟨hx, hns⟩)
        · subst hx; exact ⟨Or.inl rfl, hk⟩
        · refine ⟨Or.inr hx, fun hc => hns (by simp [hc])⟩
      · rintro ⟨hx | hx, hns⟩
        · subst hx; exact Or.inl rfl
        · by_cases hxk : x = k
          · subst hxk; exact Or.inl rfl
          · exact Or.inr ⟨hx, by simp [hxk, hns]⟩

theorem mem_dedupKeys (x : Str) (l : List Str) : x ∈ dedupKeys l ↔ x ∈ l := by
  simp [dedupKeys, mem_dedupGo]

theorem emitGo_nil (old new : List (Str × Json)) (path : List Str) :
    emitGo old new path [] = [] := by
  rw [emitGo.eq_def]

theorem emitGo_cons (old new : List (Str × Json)) (path : List Str) (k : Str)
    (ks : List Str) :
    emitGo old new path (k :: ks) = emitStep old new path k ++ emitGo old new path ks := by
  rw [emitGo.eq_def]
  rcases hSN : scalarOfOpt (jsLookup new k) with _ | ns <;>
    rcases hSO : scalarOfOpt (jsLookup old k) with _ | os <;>
      simp only [emitStep, emittedInstrs, hSN, hSO]
  all_goals
    split
    next nk ok hN hO => simp only [hN, hO]
    next hno =>
      rcases hTN : asTable (jsLookup new k) with _ | nk <;>
        rcases hTO : asTable (jsLookup old k) with _ | ok <;>
          simp only [hTN, hTO] <;> try rfl
      exact (hno nk ok hTN hTO).elim

theorem applyInstrs_append (text : Str) (l1 l2 : List Instr) :
    applyInstrs text (l1 ++ l2) =
      ((applyInstrs (applyInstrs text l1).1 l2).1,
        (applyInstrs text l1).2 || (applyInstrs (applyInstrs text l1).1 l2).2) := by
  induction l1 generalizing text with
  | nil => simp [applyInstrs]
  | cons i is ih =>
    show applyInstrs text ((i :: is) ++ l2) = _
    rw [List.cons_append]
    simp only [applyInstrs]
    rw [ih]
    simp [Bool.or_assoc]

theorem walkPatchGo_eq_applyInstrs :
    ∀ (n : Nat) (new : List (Str × Json)), sizeOf new ≤ n →
      ∀ (old : List (Str × Json)) (path ks : List Str) (text : Str),
        walkPatchGo old new path ks text = applyInstrs text (emitGo old new path ks) := by
  intro n
  induction n with
  | zero =>
    intro new hsz
    have := sizeOf_table_pos new
    omega
  | succ n ih =>
    intro new hsz old path ks text
    induction ks generalizing text with
    | nil => simp [walkPatchGo_nil, emitGo_nil, applyInstrs]
    | cons k ks2 ihk =>
      have hstep : walkStep old new path k text =
          applyInstrs text (emitStep old new path k) := by
        rcases hSN : scalarOfOpt (jsLookup new k) with _ | ns <;>
          rcases hSO : scalarOfOpt (jsLookup old k) with _ | os <;>
            rcases hTN : asTable (jsLookup new k) with _ | nk <;>
              rcases hTO : asTable (jsLookup old k) with _ | ok <;>
                simp only [walkStep, emitStep, walkPatch, emittedInstrs, hSN, hSO,
                  hTN, hTO, applyInstrs, Bool.or_false]
        case none.none.some.some =>
          exact ih nk (by have := asTable_sizeOf new k nk hTN; omega) ok (path ++ [k])
            (dedupKeys (keysOf ok ++ keysOf nk)) text
        case none.some.some.some =>
          exact ih nk (by have := asTable_sizeOf new k nk hTN; omega) ok (path ++ [k])
            (dedupKeys (keysOf ok ++ keysOf nk)) text
        case some.none.some.some =>
          exact ih nk (by have := asTable_sizeOf new k nk hTN; omega) ok (path ++ [k])
            (dedupKeys (keysOf ok ++ keysOf nk)) text
        all_goals try simp
      rw [walkPatchGo_cons, emitGo_cons, applyInstrs_append, hstep, ihk]

theorem mem_emitGo (old new : List (Str × Json)) (path : List Str) (i : Instr) :
    ∀ ks, i ∈ emitGo old new path ks ↔ ∃ k ∈ ks, i ∈ emitStep old new path k := by
  intro ks
  induction ks with
  | nil => simp [emitGo_nil]
  | cons k ks ih =>
    rw [emitGo_cons]
    simp only [List.mem_append, ih, List.mem_cons]
    constructor
    · rintro (hs | ⟨k1, hk1, hs⟩)
      · exact ⟨k, Or.inl rfl, hs⟩
      · exact ⟨k1, Or.inr hk1, hs⟩
    · rintro ⟨k1, hk1 | hk1, hs⟩
      · subst hk1; exact Or.inl hs
      · exact Or.inr ⟨k1, hk1, hs⟩

theorem emittedInstrs_mem :
    ∀ (n : Nat) (new : List (Str × Json)), sizeOf new ≤ n →
      ∀ (old : List (Str × Json)) (base p : List Str) (k lit : Str),
        ((p, k, lit) ∈ emittedInstrs old new base ↔
          ∃ rel ot nt, p = base ++ rel ∧ descendBoth old new rel = some (ot, nt) ∧
            (∃ os, scalarOfOpt (jsLookup ot k) = some os) ∧
            scalarOfOpt (jsLookup nt k) = some lit) := by
  intro n
  induction n with
  | zero =>
    intro new hsz
    have := sizeOf_table_pos new
    omega
  | succ n ih =>
    intro new hsz old base p k lit
    rw [emittedInstrs, mem_emitGo]
    constructor
    · rintro ⟨k1, hk1, hstep⟩
      rcases hSN : scalarOfOpt (jsLookup new k1) with _ | ns <;>
        rcases hSO : scalarOfOpt (jsLookup old k1) with _ | os1
      case some.some =>
        simp only [emitStep, hSN, hSO, List.mem_singleton] at hstep
        obtain ⟨hp, hk, hl⟩ : p = base ∧ k = k1 ∧ lit = ns := by
          simpa [Prod.ext_iff] using hstep
        subst hp hk hl
        exact ⟨[], old, new, by simp, by simp [descendBoth], ⟨os1, hSO⟩, hSN⟩
      all_goals
        (rcases hTN : asTable (jsLookup new k1) with _ | nk <;>
          rcases hTO : asTable (jsLookup old k1) with _ | ok1 <;>
            simp only [emitStep, hSN, hSO, hTN, hTO, List.not_mem_nil] at hstep
         obtain ⟨rel2, ot, nt, hp, hdesc, hsc, hlit⟩ :=
           (ih nk (by have := asTable_sizeOf new k1 nk hTN; omega) ok1 (base ++ [k1])
             p k lit).mp hstep
         exact ⟨k1 :: rel2, ot, nt, by simp [hp],
           by simp [descendBoth, hTN, hTO, hdesc], hsc, hlit⟩)
    · rintro ⟨rel, ot, nt, hp, hdesc, ⟨os1, hos⟩, hlit⟩
      cases rel with
      | nil =>
        simp only [descendBoth, Option.some.injEq, Prod.mk.injEq] at hdesc
        obtain ⟨hot, hnt⟩ := hdesc
        subst hot hnt
        have hpb : p = base := by simpa using hp
        subst hpb
        have hkmem : k ∈ keysOf new := by
          cases hv : jsLookup new k with
          | none => rw [hv] at hlit; simp [scalarOfOpt] at hlit
          | some v => exact jsLookup_mem_keys new k v hv
        refine ⟨k, ?_, ?_⟩
        · rw [mem_dedupKeys]
          simp [hkmem]
        · simp only [emitStep, hlit, hos]
          simp
      | cons k1 rel2 =>
        rcases hTN : asTable (jsLookup new k1) with _ | nk <;>
          rcases hTO : asTable (jsLookup old k1) with _ | ok1 <;>
            simp only [descendBoth, hTN, hTO] at hdesc <;>
              try simp at hdesc
        have hk1mem : k1 ∈ keysOf new :=
          jsLookup_mem_keys new k1 _ (asTable_eq_some _ _ hTN)
        refine ⟨k1, ?_, ?_⟩
        · rw [mem_dedupKeys]
          simp [hk1mem]
        · have hsn : scalarOfOpt (jsLookup new k1) = none := by
            rw [asTable_eq_some _ _ hTN]
            rfl
          have hso : scalarOfOpt (jsLookup old k1) = none := by
            rw [asTable_eq_some _ _ hTO]
            rfl
          simp only [emitStep, hsn, hso, hTN, hTO]
          exact (ih nk (by have := asTable_sizeOf new k1 nk hTN; omega) ok1
            (base ++ [k1]) p k lit).mpr
            ⟨rel2, ot, nt, by simp [hp], hdesc, ⟨os1, hos⟩, hlit⟩

/-- Claim C3 (amended): the patch walk equals applying the emitted instruction list in order, and an instruction for key k at path p is emitted if and only if both trees carry a table at path p and the key is scalar in both tables, with the new literal as the instruction literal: no comparison of the old and new literals takes place, so equal literals still produce an instruction. -/
theorem claim3_all_scalar_pairs_attempted :
    (∀ (text : Str) (old new : List (Str × Json)) (path : List Str),
      walkPatch text old new path = applyInstrs text (emittedInstrs old new path)) ∧
    (∀ (old new : List (Str × Json)) (p : List Str) (k lit : Str),
      ((p, k, lit) ∈ emittedInstrs old new [] ↔
        ∃ ot nt, descendBoth old new p = some (ot, nt) ∧
          (∃ os, scalarOfOpt (jsLookup ot k) = some os) ∧
          scalarOfOpt (jsLookup nt k) = some lit)) := by
  constructor
  · intro text old new path
    rw [walkPatch, emittedInstrs]
    exact walkPatchGo_eq_applyInstrs (sizeOf new) new le_rfl old path _ text
  · intro old new p k lit
    rw [emittedInstrs_mem (sizeOf new) new le_rfl old [] p k lit]
    constructor
    · rintro ⟨rel, ot, nt, hp, h1, h2, h3⟩
      have hrp : rel = p := by simpa using hp.symm
      subst hrp
      exact ⟨ot, nt, h1, h2, h3⟩
    · rintro ⟨ot, nt, h1, h2, h3⟩
      exact ⟨p, ot, nt, by simp, h1, h2, h3⟩

/-- Witness for Claim C3: the decomposition evaluated at a concrete pair of trees, and a concrete emitted instruction for a key whose value changed. -/
theorem claim3_all_scalar_pairs_witness :
    walkPatch (("b=2").toList) [((("b").toList), Json.num (.int 2))]
        [((("b").toList), Json.num (.int 3))] [] =
      applyInstrs (("b=2").toList)
        (emittedInstrs [((("b").toList), Json.num (.int 2))]
          [((("b").toList), Json.num (.int 3))] []) ∧
    ((([] : List Str), ("b").toList, ("3").toList) ∈
      emittedInstrs [((("b").toList), Json.num (.int 2))]
        [((("b").toList), Json.num (.int 3))] []) := by
  constructor
  · exact claim3_all_scalar_pairs_attempted.1 _ _ _ _
  · exact (claim3_all_scalar_pairs_attempted.2 _ _ _ _ _).mpr
      ⟨[((("b").toList), Json.num (.int 2))], [((("b").toList), Json.num (.int 3))],
        rfl, ⟨("2").toList, by decide⟩, by decide⟩

end WebCfg
